import Mathlib

/-!
Shallow embedding of `src/src/lib.rs` (an LRU cache, `Cache<K, V>`).

The Rust implementation keeps a `HashMap<K, NonNull<Node<K, V>>>` together
with an intrusive doubly-linked list of heap-allocated nodes (fields
`head`/`tail`, node fields `prev`/`next`).  Each node stores one key and one
value.  We embed the state as:

  * `map : List K` — the key set of the `HashMap` (the values of the map are
    raw pointers, whose targets are represented inside `order`);
  * `order : List (K × V)` — the chain of nodes reachable from `head`
    through `next` pointers, most-recently-used first, so `order.head?`
    corresponds to the `head` pointer and `order.getLast?` to `tail`;
  * `capacity : Nat` — the `capacity` field (`usize`).

`remove_node` relinks a node out of the chain (list erasure),
`add_node` links a node in at the head (list cons).  The `unwrap` of
`self.tail.take()` in `insert`'s eviction path is a panic when `tail` is
`None`; `insert` therefore returns `Option`, with `none` for that panic.
All other `unwrap`s in the source act on pointers obtained from `NonNull`
(`as_ptr().as_mut()` and `NonNull::new` of a valid reference) and cannot
fail, so they need no fallible counterpart.
-/

structure Cache (K V : Type) where
  map : List K
  order : List (K × V)
  capacity : Nat
  deriving Repr, DecidableEq

namespace Cache

variable {K V : Type} [DecidableEq K]

/-- `Cache::new(capacity)`: builds the cache unconditionally — the source
performs no validation of `capacity`. -/
def new (capacity : Nat) : Cache K V :=
  { map := [], order := [], capacity := capacity }

/-- `Cache::get(&mut self, key)`: look the key up in the map; on a hit,
dereference the stored pointer to the node, `remove_node` it (erase from the
chain), `add_node` it (cons at the head) and return its value; on a miss
return `None` and leave the state unchanged.  The inner `none` case (key in
the map but no node with that key in the chain) corresponds to a dangling
pointer, which no reachable state produces. -/
def get (c : Cache K V) (k : K) : Option V × Cache K V :=
  if c.map.contains k then
    match c.order.find? (fun p => p.1 == k) with
    | some p =>
        (some p.2, { c with order := p :: c.order.eraseP (fun q => q.1 == k) })
    | none => (none, c)
  else
    (none, c)

/-- `Cache::insert(&mut self, key, value)`.
Occupied entry: write `value` into the node, `remove_node` + `add_node`
(the node keeps its key, which equals the probe key whenever map and chain
agree on keys).  Vacant entry: if `map.len() == capacity`, take the tail
pointer — `unwrap` panics (`none`) when the chain is empty — `remove_node`
the tail node (drop the last chain element) and remove its key from the
map; then allocate the new node, insert it into the map and `add_node` it. -/
def insert (c : Cache K V) (k : K) (v : V) : Option (Cache K V) :=
  if c.map.contains k then
    some { c with order := (k, v) :: c.order.eraseP (fun q => q.1 == k) }
  else
    match (if c.map.length == c.capacity then
             match c.order.getLast? with
             | none => none
             | some t =>
                 some { c with map := c.map.erase t.1,
                               order := c.order.dropLast }
           else some c : Option (Cache K V)) with
    | none => none
    | some c₁ =>
        some { c₁ with map := k :: c₁.map, order := (k, v) :: c₁.order }

/-- The key that a call `insert c k v` would evict, read off from the state:
the eviction branch runs exactly when `k` is vacant and the map is full, and
its victim is the node at `tail`. -/
def evictedKey (c : Cache K V) (k : K) : Option K :=
  if c.map.contains k then none
  else if c.map.length == c.capacity then (c.order.getLast?).map Prod.fst
  else none

/-- One public operation of the API. -/
inductive Op (K V : Type) where
  | get (k : K)
  | insert (k : K) (v : V)
  deriving Repr, DecidableEq

/-- Apply one operation; `none` propagates the `insert` panic. -/
def applyOp (c : Cache K V) : Op K V → Option (Cache K V)
  | .get k => some (c.get k).2
  | .insert k v => c.insert k v

/-- Run a sequence of operations from a state; `none` as soon as one op
panics. -/
def run (c : Cache K V) : List (Op K V) → Option (Cache K V)
  | [] => some c
  | op :: ops => (c.applyOp op).bind (fun c' => run c' ops)

/-- Insert a list of key-value pairs in order. -/
def insertAll (c : Cache K V) : List (K × V) → Option (Cache K V)
  | [] => some c
  | p :: ps => (c.insert p.1 p.2).bind (fun c' => insertAll c' ps)

/-- Structural agreement of the two components: the map's key set has no
duplicates and is, as a multiset, exactly the key set of the chain. -/
def Inv (c : Cache K V) : Prop :=
  c.map.Nodup ∧ c.map.Perm (c.order.map Prod.fst)

/-- Well-formed state: the components agree and the size respects the
capacity bound. -/
def WF (c : Cache K V) : Prop :=
  c.Inv ∧ c.map.length ≤ c.capacity

instance (c : Cache K V) : Decidable c.Inv := by
  unfold Inv; infer_instance

instance (c : Cache K V) : Decidable c.WF := by
  unfold WF; infer_instance

end Cache

namespace Cache

variable {K V : Type} [DecidableEq K]

/-! ### List helper lemmas -/

theorem map_fst_eraseP (l : List (K × V)) (k : K) :
    (l.eraseP (fun p => p.1 == k)).map Prod.fst = (l.map Prod.fst).erase k := by
  induction l with
  | nil => rfl
  | cons p t ih =>
      by_cases h : p.1 = k
      · simp [List.eraseP_cons, List.erase_cons, h]
      · simp [List.eraseP_cons, List.erase_cons, h, ih]

theorem erase_getLast_of_nodup (l : List K) (a : K) (hnd : l.Nodup)
    (h : l.getLast? = some a) : l.erase a = l.dropLast := by
  have hne : l ≠ [] := by rintro rfl; simp at h
  have hdec := List.dropLast_append_getLast hne
  have ha : l.getLast hne = a := by
    have := List.getLast?_eq_getLast l hne
    rw [this] at h; exact Option.some_injective _ h
  rw [← hdec, ha]
  have hnotmem : a ∉ l.dropLast := by
    intro hmem
    have : ¬ l.Nodup := by
      rw [← hdec, ha]
      simp [List.nodup_append, hmem]
    exact this hnd
  rw [List.erase_append_right _ hnotmem]
  simp [List.dropLast_concat]

end Cache

namespace Cache

variable {K V : Type} [DecidableEq K]

/-! ### Branch characterizations of the operations -/

theorem contains_eq_true_iff (l : List K) (k : K) :
    l.contains k = true ↔ k ∈ l := List.elem_iff

theorem contains_eq_false_iff (l : List K) (k : K) :
    l.contains k = false ↔ k ∉ l := by
  rw [← Bool.not_eq_true, not_iff_not]; exact List.elem_iff

theorem get_miss (c : Cache K V) (k : K) (h : c.map.contains k = false) :
    c.get k = (none, c) := by
  have hk : k ∉ c.map := (contains_eq_false_iff _ _).mp h
  simp [get, hk]

theorem find?_key_of_inv (c : Cache K V) (k : K) (hinv : c.Inv)
    (h : c.map.contains k = true) :
    ∃ v, c.order.find? (fun p => p.1 == k) = some (k, v) := by
  obtain ⟨hnd, hperm⟩ := hinv
  have hk : k ∈ c.map := (contains_eq_true_iff _ _).mp h
  have hk' : k ∈ c.order.map Prod.fst := hperm.mem_iff.mp hk
  obtain ⟨p, hp, hpk⟩ := List.mem_map.mp hk'
  have hfind : (c.order.find? (fun q => q.1 == k)).isSome := by
    rw [List.find?_isSome]
    exact ⟨p, hp, by simp [hpk]⟩
  obtain ⟨q, hq⟩ := Option.isSome_iff_exists.mp hfind
  have hq1 : q.1 = k := by
    have := List.find?_some hq
    simpa using this
  exact ⟨q.2, by rw [hq]; congr 1; exact Prod.ext hq1 rfl⟩

theorem get_hit (c : Cache K V) (k : K) (v : V) (h : c.map.contains k = true)
    (hfind : c.order.find? (fun p => p.1 == k) = some (k, v)) :
    c.get k = (some v,
      { c with order := (k, v) :: c.order.eraseP (fun q => q.1 == k) }) := by
  have hk : k ∈ c.map := (contains_eq_true_iff _ _).mp h
  simp [get, hk, hfind]

theorem insert_occupied (c : Cache K V) (k : K) (v : V)
    (h : c.map.contains k = true) :
    c.insert k v =
      some { c with order := (k, v) :: c.order.eraseP (fun q => q.1 == k) } := by
  have hk : k ∈ c.map := (contains_eq_true_iff _ _).mp h
  simp [insert, hk]

theorem insert_vacant_room (c : Cache K V) (k : K) (v : V)
    (h : c.map.contains k = false) (hlen : c.map.length ≠ c.capacity) :
    c.insert k v =
      some { c with map := k :: c.map, order := (k, v) :: c.order } := by
  have hk : k ∉ c.map := (contains_eq_false_iff _ _).mp h
  simp [insert, hk, hlen]

theorem insert_vacant_evict (c : Cache K V) (k : K) (v : V) (t : K × V)
    (h : c.map.contains k = false) (hlen : c.map.length = c.capacity)
    (ht : c.order.getLast? = some t) :
    c.insert k v =
      some { map := k :: c.map.erase t.1,
             order := (k, v) :: c.order.dropLast,
             capacity := c.capacity } := by
  have hk : k ∉ c.map := (contains_eq_false_iff _ _).mp h
  simp [insert, hk, hlen, ht]

theorem insert_vacant_panic (c : Cache K V) (k : K) (v : V)
    (h : c.map.contains k = false) (hlen : c.map.length = c.capacity)
    (ht : c.order = []) :
    c.insert k v = none := by
  have hk : k ∉ c.map := (contains_eq_false_iff _ _).mp h
  simp [insert, hk, hlen, ht]

end Cache

namespace Cache

variable {K V : Type} [DecidableEq K]

/-! ### Invariant preservation -/

theorem get_map_eq (c : Cache K V) (k : K) : ((c.get k).2).map = c.map := by
  unfold get
  split
  · split <;> rfl
  · rfl

theorem get_capacity_eq (c : Cache K V) (k : K) :
    ((c.get k).2).capacity = c.capacity := by
  unfold get
  split
  · split <;> rfl
  · rfl

/-- Exhaustive case analysis of `insert`'s control flow. -/
theorem insert_cases (c : Cache K V) (k : K) (v : V) :
    (c.map.contains k = true ∧
      c.insert k v =
        some { c with order := (k, v) :: c.order.eraseP (fun q => q.1 == k) }) ∨
    (c.map.contains k = false ∧ c.map.length ≠ c.capacity ∧
      c.insert k v =
        some { c with map := k :: c.map, order := (k, v) :: c.order }) ∨
    (c.map.contains k = false ∧ c.map.length = c.capacity ∧
      ∃ t, c.order.getLast? = some t ∧
        c.insert k v =
          some { map := k :: c.map.erase t.1,
                 order := (k, v) :: c.order.dropLast,
                 capacity := c.capacity }) ∨
    (c.map.contains k = false ∧ c.map.length = c.capacity ∧ c.order = [] ∧
      c.insert k v = none) := by
  by_cases h : c.map.contains k = true
  · exact Or.inl ⟨h, insert_occupied c k v h⟩
  · have h' : c.map.contains k = false := by simpa using h
    by_cases hlen : c.map.length = c.capacity
    · cases ht : c.order.getLast? with
      | none =>
          have hnil : c.order = [] := List.getLast?_eq_none_iff.mp ht
          exact Or.inr (Or.inr (Or.inr
            ⟨h', hlen, hnil, insert_vacant_panic c k v h' hlen hnil⟩))
      | some t =>
          exact Or.inr (Or.inr (Or.inl
            ⟨h', hlen, t, rfl, insert_vacant_evict c k v t h' hlen ht⟩))
    · exact Or.inr (Or.inl ⟨h', hlen, insert_vacant_room c k v h' hlen⟩)

theorem insert_capacity_eq (c c' : Cache K V) (k : K) (v : V)
    (h : c.insert k v = some c') : c'.capacity = c.capacity := by
  rcases insert_cases c k v with
    ⟨_, heq⟩ | ⟨_, _, heq⟩ | ⟨_, _, t, _, heq⟩ | ⟨_, _, _, heq⟩ <;>
    rw [heq] at h <;> cases h <;> rfl

theorem inv_get (c : Cache K V) (k : K) (hinv : c.Inv) : ((c.get k).2).Inv := by
  by_cases h : c.map.contains k = true
  · obtain ⟨v, hfind⟩ := find?_key_of_inv c k hinv h
    rw [get_hit c k v h hfind]
    obtain ⟨hnd, hperm⟩ := hinv
    refine ⟨hnd, ?_⟩
    simp only [List.map_cons, map_fst_eraseP]
    have hk : k ∈ c.order.map Prod.fst :=
      hperm.mem_iff.mp ((contains_eq_true_iff _ _).mp h)
    exact hperm.trans (List.perm_cons_erase hk)
  · rw [get_miss c k (by simpa using h)]
    exact hinv

theorem inv_insert (c c' : Cache K V) (k : K) (v : V) (hinv : c.Inv)
    (h : c.insert k v = some c') : c'.Inv := by
  obtain ⟨hnd, hperm⟩ := hinv
  rcases insert_cases c k v with
    ⟨hc, heq⟩ | ⟨hc, hlen, heq⟩ | ⟨hc, hlen, t, ht, heq⟩ | ⟨hc, hlen, hnil, heq⟩
  · rw [heq] at h
    cases h
    refine ⟨hnd, ?_⟩
    simp only [List.map_cons, map_fst_eraseP]
    have hk : k ∈ c.order.map Prod.fst :=
      hperm.mem_iff.mp ((contains_eq_true_iff _ _).mp hc)
    exact hperm.trans (List.perm_cons_erase hk)
  · rw [heq] at h
    cases h
    have hk : k ∉ c.map := (contains_eq_false_iff _ _).mp hc
    exact ⟨List.Nodup.cons hk hnd, by simpa using hperm.cons k⟩
  · rw [heq] at h
    cases h
    have hk : k ∉ c.map := (contains_eq_false_iff _ _).mp hc
    have hknd : (c.order.map Prod.fst).Nodup := hperm.nodup_iff.mp hnd
    have htk : (c.order.map Prod.fst).getLast? = some t.1 := by
      rw [List.getLast?_map, ht]; rfl
    have herase : (c.order.map Prod.fst).erase t.1 =
        (c.order.map Prod.fst).dropLast :=
      erase_getLast_of_nodup _ _ hknd htk
    constructor
    · exact List.Nodup.cons (fun hmem => hk (List.mem_of_mem_erase hmem))
        (hnd.erase t.1)
    · have hp : (c.map.erase t.1).Perm ((c.order.map Prod.fst).dropLast) := by
        rw [← herase]
        exact hperm.erase t.1
      simpa [List.map_dropLast] using hp.cons k
  · rw [heq] at h
    cases h

theorem insert_length_le (c c' : Cache K V) (k : K) (v : V) (hinv : c.Inv)
    (hle : c.map.length ≤ c.capacity) (h : c.insert k v = some c') :
    c'.map.length ≤ c'.capacity := by
  obtain ⟨hnd, hperm⟩ := hinv
  rcases insert_cases c k v with
    ⟨hc, heq⟩ | ⟨hc, hlen, heq⟩ | ⟨hc, hlen, t, ht, heq⟩ | ⟨hc, hlen, hnil, heq⟩
  · rw [heq] at h; cases h; exact hle
  · rw [heq] at h; cases h
    simpa using Nat.succ_le_of_lt (Nat.lt_of_le_of_ne hle hlen)
  · rw [heq] at h; cases h
    have htm : t.1 ∈ c.map := by
      refine hperm.mem_iff.mpr ?_
      exact List.mem_map_of_mem Prod.fst (List.mem_of_mem_getLast? ht)
    simp only [List.length_cons, List.length_erase_of_mem htm]
    have hpos : 0 < c.map.length := List.length_pos_of_mem htm
    omega
  · rw [heq] at h; cases h

theorem insert_isSome (c : Cache K V) (k : K) (v : V) (hinv : c.Inv)
    (hcap : 1 ≤ c.capacity) : (c.insert k v).isSome := by
  obtain ⟨hnd, hperm⟩ := hinv
  rcases insert_cases c k v with
    ⟨hc, heq⟩ | ⟨hc, hlen, heq⟩ | ⟨hc, hlen, t, ht, heq⟩ | ⟨hc, hlen, hnil, heq⟩ <;>
    rw [heq]
  · rfl
  · rfl
  · rfl
  · exfalso
    have : c.map.length = 0 := by
      have := hperm.length_eq
      simpa [hnil] using this
    omega

end Cache

namespace Cache

variable {K V : Type} [DecidableEq K]

/-! ### The run layer: preservation along operation sequences -/

theorem wf_new (cap : Nat) : (new (K := K) (V := V) cap).WF := by
  refine ⟨⟨List.nodup_nil, ?_⟩, ?_⟩ <;> simp [new]

theorem size_eq_of_inv (c : Cache K V) (hinv : c.Inv) :
    c.map.length = c.order.length := by
  have := hinv.2.length_eq
  simpa using this

theorem wf_applyOp (c c' : Cache K V) (op : Op K V) (hwf : c.WF)
    (h : c.applyOp op = some c') : c'.WF ∧ c'.capacity = c.capacity := by
  obtain ⟨hinv, hle⟩ := hwf
  cases op with
  | get k =>
      cases h
      exact ⟨⟨inv_get c k hinv, by rwa [get_map_eq, get_capacity_eq]⟩,
        get_capacity_eq c k⟩
  | insert k v =>
      have hcap := insert_capacity_eq c c' k v h
      exact ⟨⟨inv_insert c c' k v hinv h, insert_length_le c c' k v hinv hle h⟩,
        hcap⟩

theorem applyOp_isSome (c : Cache K V) (op : Op K V) (hwf : c.WF)
    (hcap : 1 ≤ c.capacity) : (c.applyOp op).isSome := by
  cases op with
  | get k => rfl
  | insert k v => exact insert_isSome c k v hwf.1 hcap

theorem wf_run (ops : List (Op K V)) (c c' : Cache K V) (hwf : c.WF)
    (h : c.run ops = some c') : c'.WF ∧ c'.capacity = c.capacity := by
  induction ops generalizing c with
  | nil =>
      cases h
      exact ⟨hwf, rfl⟩
  | cons op ops ih =>
      rw [run] at h
      cases hstep : c.applyOp op with
      | none => rw [hstep] at h; cases h
      | some c₁ =>
          rw [hstep] at h
          obtain ⟨hwf₁, hcap₁⟩ := wf_applyOp c c₁ op hwf hstep
          obtain ⟨hwf', hcap'⟩ := ih c₁ hwf₁ h
          exact ⟨hwf', hcap'.trans hcap₁⟩

theorem run_isSome (ops : List (Op K V)) (c : Cache K V) (hwf : c.WF)
    (hcap : 1 ≤ c.capacity) : (c.run ops).isSome := by
  induction ops generalizing c with
  | nil => rfl
  | cons op ops ih =>
      rw [run]
      cases hstep : c.applyOp op with
      | none =>
          exfalso
          have := applyOp_isSome c op hwf hcap
          rw [hstep] at this
          cases this
      | some c₁ =>
          obtain ⟨hwf₁, hcap₁⟩ := wf_applyOp c c₁ op hwf hstep
          simpa using ih c₁ hwf₁ (hcap₁ ▸ hcap)

theorem run_new_wf (cap : Nat) (ops : List (Op K V)) (c' : Cache K V)
    (h : (new (K := K) (V := V) cap).run ops = some c') :
    c'.WF ∧ c'.capacity = cap := wf_run ops _ c' (wf_new cap) h

end Cache

namespace Cache

variable {K V : Type} [DecidableEq K]

/-- C1: for every cache whose index and recency list agree and every key `k`
present in the index, `get` returns `some` of the value currently stored for
`k` (the value in `k`'s node in the recency list) and afterwards `k`'s node
is the head (most-recently-used end) of the recency list. -/
theorem C1_get_hit_promotes (c : Cache K V) (k : K) (hinv : c.Inv)
    (hmem : c.map.contains k = true) :
    ∃ v, c.order.find? (fun p => p.1 == k) = some (k, v) ∧
      (c.get k).1 = some v ∧
      ((c.get k).2).order.head? = some (k, v) := by
  obtain ⟨v, hfind⟩ := find?_key_of_inv c k hinv hmem
  refine ⟨v, hfind, ?_, ?_⟩ <;> simp [get_hit c k v hmem hfind]

theorem C1_witness :
    ∃ v, (⟨[2, 1], [(1, 10), (2, 20)], 3⟩ : Cache Nat Nat).order.find?
        (fun p => p.1 == 2) = some (2, v) ∧
      ((⟨[2, 1], [(1, 10), (2, 20)], 3⟩ : Cache Nat Nat).get 2).1 = some v ∧
      (((⟨[2, 1], [(1, 10), (2, 20)], 3⟩ : Cache Nat Nat).get 2).2).order.head? =
        some (2, v) :=
  C1_get_hit_promotes ⟨[2, 1], [(1, 10), (2, 20)], 3⟩ 2 (by decide) (by decide)

/-- C2: from a cache constructed with capacity `cap`, after every completed
sequence of operations the number of entries (index size and recency-list
length alike) is at most `cap`. -/
theorem C2_capacity_invariant (cap : Nat) (ops : List (Op K V))
    (c' : Cache K V) (h : (new (K := K) (V := V) cap).run ops = some c') :
    c'.map.length ≤ cap ∧ c'.order.length ≤ cap := by
  obtain ⟨⟨hinv, hle⟩, hcap⟩ := run_new_wf cap ops c' h
  have hsz := size_eq_of_inv c' hinv
  omega

theorem C2_witness :
    (⟨[3, 2], [(2, 20), (3, 30)], 2⟩ : Cache Nat Nat).map.length ≤ 2 ∧
    (⟨[3, 2], [(2, 20), (3, 30)], 2⟩ : Cache Nat Nat).order.length ≤ 2 :=
  C2_capacity_invariant 2
    [.insert 1 10, .insert 2 20, .insert 3 30, .get 2] _ (by decide)

/-- C5: inserting an already-present key replaces its stored value, promotes
its node to the head of the recency list, keeps the index unchanged, keeps
the number of entries unchanged and evicts nothing (the key multiset of the
recency list is preserved). -/
theorem C5_update_in_place (c : Cache K V) (k : K) (v : V) (hinv : c.Inv)
    (hmem : c.map.contains k = true) :
    ∃ c', c.insert k v = some c' ∧
      c'.map = c.map ∧
      c'.order.length = c.order.length ∧
      c'.order.head? = some (k, v) ∧
      c'.order.find? (fun p => p.1 == k) = some (k, v) ∧
      (c'.order.map Prod.fst).Perm (c.order.map Prod.fst) := by
  obtain ⟨v₀, hfind⟩ := find?_key_of_inv c k hinv hmem
  have hkv : (k, v₀) ∈ c.order := List.mem_of_find?_eq_some hfind
  refine ⟨_, insert_occupied c k v hmem, rfl, ?_, rfl, ?_, ?_⟩
  · have hlen := List.length_eraseP_of_mem (p := fun q => q.1 == k) hkv (by simp)
    have hpos : 0 < c.order.length := List.length_pos_of_mem hkv
    simp only [List.length_cons, hlen]
    omega
  · exact List.find?_cons_of_pos _ (by simp)
  · simp only [List.map_cons, map_fst_eraseP]
    have hk : k ∈ c.order.map Prod.fst := List.mem_map_of_mem Prod.fst hkv
    exact (List.perm_cons_erase hk).symm

theorem C5_witness :
    ∃ c', (⟨[1, 2], [(2, 20), (1, 10)], 3⟩ : Cache Nat Nat).insert 1 99 =
        some c' ∧
      c'.map = [1, 2] ∧
      c'.order.length = ([(2, 20), (1, 10)] : List (Nat × Nat)).length ∧
      c'.order.head? = some (1, 99) ∧
      c'.order.find? (fun p => p.1 == 1) = some (1, 99) ∧
      (c'.order.map Prod.fst).Perm
        (([(2, 20), (1, 10)] : List (Nat × Nat)).map Prod.fst) :=
  C5_update_in_place ⟨[1, 2], [(2, 20), (1, 10)], 3⟩ 1 99 (by decide) (by decide)

/-- C6: `get` on a key absent from the index returns `none` and leaves the
whole cache state (keys, values and recency order) unchanged. -/
theorem C6_miss_purity (c : Cache K V) (k : K)
    (h : c.map.contains k = false) : c.get k = (none, c) :=
  get_miss c k h

theorem C6_witness :
    (⟨[1], [(1, 5)], 2⟩ : Cache Nat Nat).get 2 =
      (none, ⟨[1], [(1, 5)], 2⟩) :=
  C6_miss_purity ⟨[1], [(1, 5)], 2⟩ 2 (by decide)

/-- C7 (code behaviour at the failing input): `Cache::new` performs no
capacity validation — `new 0` succeeds and yields a cache rather than a
configuration error, and the first insertion into it then panics. -/
theorem C7_new_unguarded :
    (new 0 : Cache Nat Nat) = ⟨[], [], 0⟩ ∧
    ((new 0 : Cache Nat Nat)).insert 1 10 = none := by
  exact ⟨rfl, rfl⟩

/-- C9: for a cache constructed with capacity `0`, the first insert of any
key reaches the panic (`unwrap` of the `tail` of the empty recency list):
`insert` returns `none`. -/
theorem C9_zero_capacity_panic (k : K) (v : V) :
    (new (K := K) (V := V) 0).insert k v = none := by
  apply insert_vacant_panic <;> rfl

theorem C9_witness : (new (K := Nat) (V := Nat) 0).insert 7 42 = none :=
  C9_zero_capacity_panic 7 42

/-- C8: after every completed operation sequence the index size equals the
recency-list length, and every key in the index labels exactly one node of
the recency list (so an eviction removes the victim from both structures
within the same call). -/
theorem C8_index_list_agreement (cap : Nat) (ops : List (Op K V))
    (c' : Cache K V) (h : (new (K := K) (V := V) cap).run ops = some c') :
    c'.map.length = c'.order.length ∧
    ∀ k ∈ c'.map, c'.order.countP (fun p => p.1 == k) = 1 := by
  obtain ⟨⟨hinv, _⟩, _⟩ := run_new_wf cap ops c' h
  refine ⟨size_eq_of_inv c' hinv, ?_⟩
  intro k hk
  obtain ⟨hnd, hperm⟩ := hinv
  have hknd : (c'.order.map Prod.fst).Nodup := hperm.nodup_iff.mp hnd
  have hkmem : k ∈ c'.order.map Prod.fst := hperm.mem_iff.mp hk
  have hcount : (c'.order.map Prod.fst).count k = 1 :=
    List.count_eq_one_of_mem hknd hkmem
  rw [List.count, List.countP_map] at hcount
  exact hcount

theorem C8_witness :
    (⟨[3, 2], [(2, 20), (3, 30)], 2⟩ : Cache Nat Nat).map.length =
      (⟨[3, 2], [(2, 20), (3, 30)], 2⟩ : Cache Nat Nat).order.length ∧
    ∀ k ∈ (⟨[3, 2], [(2, 20), (3, 30)], 2⟩ : Cache Nat Nat).map,
      (⟨[3, 2], [(2, 20), (3, 30)], 2⟩ : Cache Nat Nat).order.countP
        (fun p => p.1 == k) = 1 :=
  C8_index_list_agreement 2
    [.insert 1 10, .insert 2 20, .insert 3 30, .get 2] _ (by decide)

/-- C10: with any positive capacity, no sequence of public operations
reaches a panic: `get` and `insert` are total on all states reachable from
construction, the tail `unwrap` of the eviction path always succeeding. -/
theorem C10_no_panic (cap : Nat) (hcap : 1 ≤ cap) (ops : List (Op K V)) :
    ((new (K := K) (V := V) cap).run ops).isSome :=
  run_isSome ops _ (wf_new cap) hcap

theorem C10_witness :
    ((new (K := Nat) (V := Nat) 1).run
      [.insert 1 10, .insert 2 20, .get 1, .get 2, .insert 2 30]).isSome :=
  C10_no_panic 1 (by decide) _

end Cache

namespace Cache

variable {K V : Type} [DecidableEq K]

theorem insertAll_append (c : Cache K V) (l₁ l₂ : List (K × V)) :
    c.insertAll (l₁ ++ l₂) = (c.insertAll l₁).bind (fun c' => c'.insertAll l₂) := by
  induction l₁ generalizing c with
  | nil => rfl
  | cons p t ih =>
      rw [List.cons_append, insertAll, insertAll]
      cases c.insert p.1 p.2 with
      | none => rfl
      | some c₁ => simp [ih]

/-- State reached by inserting a sequence of pairwise-distinct fresh keys
into a freshly constructed cache: the cache retains exactly the most recent
`cap` pairs, in reverse insertion order (most recent first). -/
theorem insertAll_fresh (cap : Nat) (hcap : 1 ≤ cap) (rs : List (K × V))
    (hnd : (rs.map Prod.fst).Nodup) :
    insertAll (new (K := K) (V := V) cap) rs =
      some { map := ((rs.drop (rs.length - cap)).map Prod.fst).reverse,
             order := (rs.drop (rs.length - cap)).reverse,
             capacity := cap } := by
  induction rs using List.reverseRecOn with
  | nil => simp [insertAll, new]
  | append_singleton l p ih =>
      have hndl : (l.map Prod.fst).Nodup := by
        rw [List.map_append, List.nodup_append] at hnd
        exact hnd.1
      have hpl : p.1 ∉ l.map Prod.fst := by
        rw [List.map_append, List.nodup_append] at hnd
        intro hmem
        exact hnd.2.2 hmem (by simp)
      rw [insertAll_append, ih hndl]
      simp only [Option.some_bind]
      set d := l.length - cap with hd
      set w : List (K × V) := l.drop d with hw
      set s : Cache K V :=
        { map := (w.map Prod.fst).reverse, order := w.reverse, capacity := cap }
        with hs
      have hsmaplen : s.map.length = l.length - d := by
        simp [hs, hw]
      have hcontains : s.map.contains p.1 = false := by
        rw [contains_eq_false_iff]
        intro hmem
        apply hpl
        rw [hs] at hmem
        simp only [List.mem_reverse] at hmem
        rw [hw, List.map_drop] at hmem
        exact (List.drop_sublist d (l.map Prod.fst)).mem hmem
      rw [insertAll]
      by_cases hl : l.length < cap
      · have hd0 : d = 0 := by omega
        have hlen : s.map.length ≠ s.capacity := by
          rw [hsmaplen]; simp [hs]; omega
        rw [insert_vacant_room s p.1 p.2 hcontains hlen]
        have hd0' : l.length + 1 - cap = 0 := by omega
        simp [insertAll, hs, hw, hd0, hd0']
      · have hwlen : w.length = cap := by
          rw [hw, List.length_drop]; omega
        have hlen : s.map.length = s.capacity := by
          rw [hsmaplen]; simp [hs]; omega
        have hwne : w ≠ [] := by
          intro h0; rw [h0] at hwlen; simp at hwlen; omega
        obtain ⟨t, ht⟩ : ∃ t, w.head? = some t := by
          cases hwc : w with
          | nil => exact absurd hwc hwne
          | cons a as => exact ⟨a, rfl⟩
        have hgl : s.order.getLast? = some t := by
          rw [hs]
          simpa [List.getLast?_reverse] using ht
        rw [insert_vacant_evict s p.1 p.2 t hcontains hlen hgl]
        have hsnd : s.map.Nodup := by
          rw [hs]
          simp only [List.nodup_reverse]
          rw [hw, List.map_drop]
          exact (List.drop_sublist d (l.map Prod.fst)).nodup hndl
        have hglm : s.map.getLast? = some t.1 := by
          rw [hs]
          simp only [List.getLast?_reverse, List.head?_map]
          rw [hw] at ht ⊢
          rw [ht]
          rfl
        have herase : s.map.erase t.1 = s.map.dropLast :=
          erase_getLast_of_nodup s.map t.1 hsnd hglm
        have hdl_order : s.order.dropLast = (l.drop (d + 1)).reverse := by
          rw [hs]
          simp only [List.dropLast_reverse]
          rw [hw, List.tail_drop]
        have hdl_map : s.map.dropLast = ((l.drop (d + 1)).map Prod.fst).reverse := by
          rw [hs]
          simp only [List.dropLast_reverse]
          rw [hw, List.map_drop, List.tail_drop, List.map_drop]
        have hd1 : (l ++ [p]).length - cap = d + 1 := by
          simp; omega
        have hdrop : (l ++ [p]).drop (d + 1) = l.drop (d + 1) ++ [p] :=
          List.drop_append_of_le_length (by omega)
        rw [herase, hdl_map, hdl_order, hd1, hdrop]
        simp [insertAll, List.map_drop]

end Cache

namespace Cache

variable {K V : Type} [DecidableEq K]

/-- C3: after inserting distinct keys `ps` (at most `cap` of them) into a new
cache with no intervening gets, further inserts of fresh distinct keys `qs`
evict the original keys in insertion order: the insert performed once the
cache is `i` steps past the point of fullness evicts exactly `ps[i]`,
removing it from the cache, oldest first. -/
theorem C3_eviction_order (cap i : Nat) (hcap : 1 ≤ cap) (ps qs : List (K × V))
    (hnd : ((ps ++ qs).map Prod.fst).Nodup) (hlen : ps.length ≤ cap)
    (hi : i < ps.length) (hq : cap - ps.length + i < qs.length) :
    ∃ s s', insertAll (new (K := K) (V := V) cap)
        (ps ++ qs.take (cap - ps.length + i)) = some s ∧
      evictedKey s (qs[cap - ps.length + i].1) = some (ps[i].1) ∧
      s.insert (qs[cap - ps.length + i].1) (qs[cap - ps.length + i].2) =
        some s' ∧
      ps[i].1 ∈ s.map ∧ ps[i].1 ∉ s'.map := by
  set m : Nat := cap - ps.length + i with hm
  set rs : List (K × V) := ps ++ qs.take m with hrs
  have hrslen : rs.length = cap + i := by
    rw [hrs]
    simp only [List.length_append, List.length_take]
    omega
  have hrssub : (rs.map Prod.fst).Sublist ((ps ++ qs).map Prod.fst) :=
    List.Sublist.map Prod.fst ((qs.take_sublist m).append_left ps)
  have hrsnd : (rs.map Prod.fst).Nodup := hrssub.nodup hnd
  have hfresh := insertAll_fresh cap hcap rs hrsnd
  have hdrop : rs.length - cap = i := by omega
  rw [hdrop] at hfresh
  set w : List (K × V) := rs.drop i with hw
  set s : Cache K V :=
    { map := (w.map Prod.fst).reverse, order := w.reverse, capacity := cap }
    with hs
  -- the head of the retained window is the i-th original pair
  have hhead : w.head? = some ps[i] := by
    rw [hw, List.head?_drop, hrs, List.getElem?_append_left hi,
      List.getElem?_eq_getElem hi]
  have hwlen : w.length = cap := by
    rw [hw, List.length_drop]; omega
  -- key-set facts
  have hdisj : ∀ a, a ∈ ps.map Prod.fst → a ∈ qs.map Prod.fst → False := by
    rw [List.map_append, List.nodup_append] at hnd
    exact fun a ha hb => hnd.2.2 ha hb
  have hqmem : qs[m].1 ∈ qs.map Prod.fst :=
    List.mem_map_of_mem Prod.fst (qs.getElem_mem hq)
  have hqtake : qs[m].1 ∉ (qs.take m).map Prod.fst := by
    rw [List.map_append, List.nodup_append] at hnd
    have hqnd : (qs.map Prod.fst).Nodup := hnd.2.1
    have hqm : m < (qs.map Prod.fst).length := by simpa using hq
    have hsplit : qs.map Prod.fst =
        (qs.map Prod.fst).take m ++ (qs.map Prod.fst).drop m :=
      (List.take_append_drop m (qs.map Prod.fst)).symm
    rw [hsplit, List.nodup_append] at hqnd
    intro hmem
    rw [List.map_take] at hmem
    have hmem' : qs[m].1 ∈ (qs.map Prod.fst).drop m := by
      have := List.head?_drop (qs.map Prod.fst) m
      rw [List.getElem?_map] at this
      have h2 : ((qs.map Prod.fst).drop m).head? = some (qs[m].1) := by
        rw [this, List.getElem?_eq_getElem hq]; rfl
      exact List.mem_of_mem_head? (by rw [h2]; exact rfl)
    exact hqnd.2.2 hmem hmem'
  have hqrs : qs[m].1 ∉ rs.map Prod.fst := by
    rw [hrs, List.map_append, List.mem_append]
    rintro (hmem | hmem)
    · exact hdisj _ hmem hqmem
    · exact hqtake hmem
  have hcontains : s.map.contains (qs[m].1) = false := by
    rw [contains_eq_false_iff, hs]
    simp only [List.mem_reverse]
    intro hmem
    apply hqrs
    rw [hw, List.map_drop] at hmem
    exact (List.drop_sublist i (rs.map Prod.fst)).mem hmem
  have hslen : s.map.length = s.capacity := by
    rw [hs]; simp [hwlen]
  have hgl : s.order.getLast? = some ps[i] := by
    rw [hs]
    simpa [List.getLast?_reverse] using hhead
  -- the claimed eviction victim
  have hevict : evictedKey s (qs[m].1) = some (ps[i].1) := by
    rw [evictedKey, hcontains]
    simp only [Bool.false_eq_true, if_false]
    rw [hslen]
    simp only [beq_self_eq_true, if_true, hgl]
    rfl
  have hinsert := insert_vacant_evict s (qs[m].1) (qs[m].2) ps[i]
    hcontains hslen hgl
  have hpimem : ps[i].1 ∈ s.map := by
    rw [hs]
    simp only [List.mem_reverse]
    exact List.mem_map_of_mem Prod.fst
      (List.mem_of_mem_head? (by rw [hhead]; exact rfl))
  have hsnd : s.map.Nodup := by
    rw [hs]
    simp only [List.nodup_reverse]
    rw [hw, List.map_drop]
    exact (List.drop_sublist i (rs.map Prod.fst)).nodup hrsnd
  have hpine : ps[i].1 ∉
      (qs[m].1 :: s.map.erase (ps[i].1)) := by
    intro hmem
    rcases List.mem_cons.mp hmem with heq | hmem'
    · exact hdisj (ps[i].1) (List.mem_map_of_mem Prod.fst (ps.getElem_mem hi))
        (heq ▸ hqmem)
    · exact ((hsnd.mem_erase_iff.mp hmem').1 rfl).elim
  exact ⟨s, _, hfresh, hevict, hinsert, hpimem, hpine⟩

theorem C3_witness :
    ∃ s s', insertAll (new (K := Nat) (V := Nat) 2)
        ([(1, 10), (2, 20)] ++ ([(3, 30), (4, 40)] :
          List (Nat × Nat)).take (2 - 2 + 0)) = some s ∧
      evictedKey s ((([(3, 30), (4, 40)] : List (Nat × Nat))[2 - 2 + 0]).1) =
        some ((([(1, 10), (2, 20)] : List (Nat × Nat))[0]).1) ∧
      s.insert ((([(3, 30), (4, 40)] : List (Nat × Nat))[2 - 2 + 0]).1)
          ((([(3, 30), (4, 40)] : List (Nat × Nat))[2 - 2 + 0]).2) = some s' ∧
      (([(1, 10), (2, 20)] : List (Nat × Nat))[0]).1 ∈ s.map ∧
      (([(1, 10), (2, 20)] : List (Nat × Nat))[0]).1 ∉ s'.map :=
  C3_eviction_order 2 0 (by decide) [(1, 10), (2, 20)] [(3, 30), (4, 40)]
    (by decide) (by decide) (by decide) (by decide)

end Cache

namespace Cache

variable {K V : Type} [DecidableEq K]

/-- A key `k` survives a run of fresh-key inserts as long as the number of
inserts stays within the slack left by the free capacity plus the entries
less recent than `k`'s node: each insert either fills a free slot or evicts
from the tail, which sits strictly behind `k` while that budget lasts. -/
theorem retained_of_budget (fs : List (K × V)) (s : Cache K V) (k : K)
    (hinv : s.Inv) (hle : s.map.length ≤ s.capacity)
    (hnd : (fs.map Prod.fst).Nodup)
    (hfresh : ∀ q ∈ fs.map Prod.fst, q ∉ s.map)
    (l₁ l₂ : List (K × V)) (v : V)
    (horder : s.order = l₁ ++ (k, v) :: l₂)
    (hbudget : fs.length + s.order.length ≤ s.capacity + l₂.length) :
    ∃ s', insertAll s fs = some s' ∧ k ∈ s'.map := by
  induction fs generalizing s l₁ l₂ v with
  | nil =>
      refine ⟨s, rfl, ?_⟩
      have hk : k ∈ s.order.map Prod.fst := by rw [horder]; simp
      exact hinv.2.mem_iff.mpr hk
  | cons f fs ih =>
      have hndf : (fs.map Prod.fst).Nodup := (List.nodup_cons.mp hnd).2
      have hf1 : f.1 ∉ fs.map Prod.fst := (List.nodup_cons.mp hnd).1
      have hcontains : s.map.contains f.1 = false := by
        rw [contains_eq_false_iff]
        exact hfresh f.1 (by simp)
      have hol : s.order.length = l₁.length + l₂.length + 1 := by
        rw [horder]
        simp only [List.length_append, List.length_cons]
        omega
      by_cases hlen : s.map.length = s.capacity
      · -- full: the insert evicts the tail, which lies inside l₂
        have hsz := size_eq_of_inv s hinv
        have hl₂len : 1 ≤ l₂.length := by
          simp only [List.length_cons] at hbudget
          omega
        have hl₂ : l₂ ≠ [] := by
          intro h0; rw [h0] at hl₂len; simp at hl₂len
        obtain ⟨t, ht⟩ : ∃ t, l₂.getLast? = some t := by
          cases hc : l₂ with
          | nil => exact absurd hc hl₂
          | cons x xs =>
              exact ⟨(x :: xs).getLast (by simp),
                List.getLast?_eq_getLast _ _⟩
        have hgl : s.order.getLast? = some t := by
          rw [horder, List.getLast?_append_of_ne_nil _ (List.cons_ne_nil _ _)]
          cases hc : l₂ with
          | nil => exact absurd hc hl₂
          | cons x xs =>
              rw [hc] at ht
              rw [List.getLast?_cons_cons]
              exact ht
        have hstep := insert_vacant_evict s f.1 f.2 t hcontains hlen hgl
        set s₁ : Cache K V :=
          { map := f.1 :: s.map.erase t.1,
            order := f :: s.order.dropLast,
            capacity := s.capacity } with hs₁
        have hinv₁ : s₁.Inv := inv_insert s s₁ f.1 f.2 hinv hstep
        have hle₁ : s₁.map.length ≤ s₁.capacity :=
          insert_length_le s s₁ f.1 f.2 hinv hle hstep
        have hfresh₁ : ∀ q ∈ fs.map Prod.fst, q ∉ s₁.map := by
          intro q hq hmem
          rcases List.mem_cons.mp hmem with heq | hmem'
          · exact hf1 (heq ▸ hq)
          · exact hfresh q (by simp [hq]) (List.mem_of_mem_erase hmem')
        have horder₁ : s₁.order = (f :: l₁) ++ (k, v) :: l₂.dropLast := by
          rw [hs₁]
          simp only [List.cons_append]
          rw [horder, List.dropLast_append_of_ne_nil _ (List.cons_ne_nil _ _),
            List.dropLast_cons_of_ne_nil hl₂]
        have hbudget₁ : fs.length + s₁.order.length ≤
            s₁.capacity + (l₂.dropLast).length := by
          have h1 : s₁.order.length = s.order.length := by
            rw [hs₁]
            simp only [List.length_cons, List.length_dropLast]
            omega
          have h2 : (l₂.dropLast).length = l₂.length - 1 :=
            List.length_dropLast l₂
          have h4 : s₁.capacity = s.capacity := by rw [hs₁]
          simp only [List.length_cons] at hbudget
          omega
        obtain ⟨s', hrun, hk⟩ :=
          ih s₁ hinv₁ hle₁ hndf hfresh₁ (f :: l₁) l₂.dropLast v horder₁
            hbudget₁
        refine ⟨s', ?_, hk⟩
        rw [insertAll, hstep]
        simpa using hrun
      · -- not full: the insert only fills a slot
        have hstep := insert_vacant_room s f.1 f.2 hcontains hlen
        set s₁ : Cache K V :=
          { map := f.1 :: s.map, order := f :: s.order,
            capacity := s.capacity } with hs₁
        have hinv₁ : s₁.Inv := inv_insert s s₁ f.1 f.2 hinv hstep
        have hle₁ : s₁.map.length ≤ s₁.capacity :=
          insert_length_le s s₁ f.1 f.2 hinv hle hstep
        have hfresh₁ : ∀ q ∈ fs.map Prod.fst, q ∉ s₁.map := by
          intro q hq hmem
          rcases List.mem_cons.mp hmem with heq | hmem'
          · exact hf1 (heq ▸ hq)
          · exact hfresh q (by simp [hq]) hmem'
        have horder₁ : s₁.order = (f :: l₁) ++ (k, v) :: l₂ := by
          rw [hs₁]; simp only [List.cons_append]; rw [horder]
        have hbudget₁ : fs.length + s₁.order.length ≤
            s₁.capacity + l₂.length := by
          have h1 : s₁.order.length = s.order.length + 1 := by
            rw [hs₁]; simp
          have h4 : s₁.capacity = s.capacity := by rw [hs₁]
          simp only [List.length_cons] at hbudget
          omega
        obtain ⟨s', hrun, hk⟩ :=
          ih s₁ hinv₁ hle₁ hndf hfresh₁ (f :: l₁) l₂ v horder₁ hbudget₁
        refine ⟨s', ?_, hk⟩
        rw [insertAll, hstep]
        simpa using hrun

end Cache

namespace Cache

variable {K V : Type} [DecidableEq K]

/-- C4 fails as stated: with capacity 1 and a cache holding only key 5,
`get 5` promotes 5 to the head, yet inserting capacity-many (= 1) further
distinct fresh keys evicts 5 — it is not still present.  (In general the
capacity-th fresh insert after the `get` always evicts `k` itself.) -/
theorem C4_counterexample :
    (5 ∈ (⟨[5], [(5, 50)], 1⟩ : Cache Nat Nat).map ∧
      (⟨[5], [(5, 50)], 1⟩ : Cache Nat Nat).WF) ∧
    ((⟨[5], [(5, 50)], 1⟩ : Cache Nat Nat).get 5).1 = some 50 ∧
    insertAll ((⟨[5], [(5, 50)], 1⟩ : Cache Nat Nat).get 5).2 [(6, 60)] =
      some ⟨[6], [(6, 60)], 1⟩ ∧
    5 ∉ (⟨[6], [(6, 60)], 1⟩ : Cache Nat Nat).map := by
  refine ⟨⟨?_, ?_⟩, ?_, ?_, ?_⟩ <;> decide

/-- C4 (amended): for every well-formed cache holding key `k`, performing
`get k` and then inserting at most capacity − 1 further distinct keys not
previously present leaves `k` still present in the cache (the run of inserts
completes without panic).  The original bound of capacity further inserts is
one too many: the capacity-th fresh insert evicts `k` itself. -/
theorem C4_get_protects (c : Cache K V) (k : K) (fresh : List (K × V))
    (hinv : c.Inv) (hle : c.map.length ≤ c.capacity)
    (hmem : c.map.contains k = true)
    (hnd : (fresh.map Prod.fst).Nodup)
    (hfresh : ∀ q ∈ fresh.map Prod.fst, q ∉ c.map)
    (hcount : fresh.length ≤ c.capacity - 1) :
    ∃ s', insertAll ((c.get k).2) fresh = some s' ∧ k ∈ s'.map := by
  obtain ⟨v, hfind⟩ := find?_key_of_inv c k hinv hmem
  have hget := get_hit c k v hmem hfind
  have hinv₀ : ((c.get k).2).Inv := inv_get c k hinv
  have hle₀ : ((c.get k).2).map.length ≤ ((c.get k).2).capacity := by
    rw [get_map_eq, get_capacity_eq]; exact hle
  have hfresh₀ : ∀ q ∈ fresh.map Prod.fst, q ∉ ((c.get k).2).map := by
    rw [get_map_eq]; exact hfresh
  have hkmem : k ∈ c.map := (contains_eq_true_iff _ _).mp hmem
  have hcap : 1 ≤ c.capacity :=
    le_trans (List.length_pos_of_mem hkmem) hle
  have horder₀ : ((c.get k).2).order =
      [] ++ (k, v) :: c.order.eraseP (fun q => q.1 == k) := by
    rw [hget]
    rfl
  have hbudget₀ : fresh.length + ((c.get k).2).order.length ≤
      ((c.get k).2).capacity + (c.order.eraseP (fun q => q.1 == k)).length := by
    rw [get_capacity_eq, hget]
    simp only [List.length_cons]
    omega
  exact retained_of_budget fresh ((c.get k).2) k hinv₀ hle₀ hnd hfresh₀
    [] (c.order.eraseP (fun q => q.1 == k)) v horder₀ hbudget₀

theorem C4_witness :
    ∃ s', insertAll (((⟨[1, 2], [(1, 10), (2, 20)], 2⟩ :
        Cache Nat Nat)).get 1).2 [(3, 30)] = some s' ∧ 1 ∈ s'.map :=
  C4_get_protects ⟨[1, 2], [(1, 10), (2, 20)], 2⟩ 1 [(3, 30)]
    (by decide) (by decide) (by decide) (by decide) (by decide) (by decide)

end Cache
